import Mathlib

/-!
Formal model of the composite-portfolio core of the repository
(`src/builder.py`, `src/portfolio.py`): positions, the VWAP trade-merge
algorithm, the portfolio tree with its valuation and flattening queries,
the staged builder, the nested-document (de)serialization, and the
metrics aggregation described by the specification.  Quantities and
prices are modelled as rationals; the Python dict `positions` is
modelled as an insertion-ordered association list with unique symbols,
matching dict iteration order.
-/

/-- Leaf node representing a single financial position
(`Position` in `src/builder.py`, lines 16-44). -/
structure Position where
  symbol : String
  quantity : ℚ
  price : ℚ
deriving Repr, DecidableEq

/-- A price lookup is a finite association of symbols to market prices;
`priceOf m s` models Python's `market_price.get(symbol, 0.0)`:
the price of `s` when present, `0` when absent. -/
def priceOf (m : List (String × ℚ)) (s : String) : ℚ :=
  match m.find? (fun kv => kv.1 == s) with
  | some kv => kv.2
  | none => 0

/-- `Position.get_value` from `src/builder.py` lines 24-25:
`self.quantity * market_price.get(self.symbol, 0.0)`. -/
def Position.get_value (p : Position) (m : List (String × ℚ)) : ℚ :=
  p.quantity * priceOf m p.symbol

/-- `Position._to_dict` output (`src/builder.py` lines 39-44): the
entry `{"symbol": ..., "quantity": ..., "price": ...}`. -/
structure PosDict where
  symbol : String
  quantity : ℚ
  price : ℚ
deriving Repr, DecidableEq

/-- `Position._to_dict` from `src/builder.py` lines 39-44. -/
def Position.to_dict (p : Position) : PosDict :=
  ⟨p.symbol, p.quantity, p.price⟩

/-- Composite node representing a portfolio of positions and/or
sub-portfolios (`Portfolio` in `src/builder.py`, lines 47-127): a name,
an owner, the symbol-keyed position mapping (insertion-ordered
association list) and the ordered list of sub-portfolios. -/
inductive Portfolio : Type where
  | node (name : String) (owner : String)
      (positions : List Position) (sub_portfolios : List Portfolio)
deriving Repr

/-- The nested-document form produced by `Portfolio._to_dict`
(`src/builder.py` lines 116-127): `name` always present, `owner`,
`positions` and `sub_portfolios` present only when non-empty. -/
inductive PortfolioDict : Type where
  | mk (name : String) (owner : Option String)
      (positions : Option (List PosDict))
      (sub_portfolios : Option (List PortfolioDict))
deriving Repr

namespace Portfolio

def name : Portfolio → String
  | node n _ _ _ => n

def owner : Portfolio → String
  | node _ o _ _ => o

def positions : Portfolio → List Position
  | node _ _ ps _ => ps

def sub_portfolios : Portfolio → List Portfolio
  | node _ _ _ subs => subs

mutual

/-- Structural (boolean) equality on portfolio trees, used to model
Python's `list.remove` equality test on `sub_portfolios`. -/
def beq : Portfolio → Portfolio → Bool
  | node n1 o1 ps1 subs1, node n2 o2 ps2 subs2 =>
    n1 = n2 && o1 = o2 && ps1 = ps2 && beqList subs1 subs2

/-- Pointwise `beq` on lists of portfolios. -/
def beqList : List Portfolio → List Portfolio → Bool
  | [], [] => true
  | x :: xs, y :: ys => beq x y && beqList xs ys
  | _, _ => false

end

/-- `Portfolio._vwap` from `src/builder.py` lines 56-70 (identical in
`src/portfolio.py` lines 49-63), transcribed exactly as written,
including the flip branch returning `(trade_price, trade_price)`. -/
def vwap (old_qty old_vwap trade_qty trade_price : ℚ) : ℚ × ℚ :=
  let new_qty := old_qty + trade_qty
  if new_qty = 0 then (0, 0)
  else if old_qty * new_qty < 0 then
    -- position flip
    (trade_price, trade_price)
  else
    (new_qty, (old_qty * old_vwap + trade_qty * trade_price) / new_qty)

/-- The dict update performed by the `Position` branch of
`Portfolio.add` (`src/builder.py` lines 75-90) on the `positions`
mapping: if the symbol is present, merge by `_vwap`, deleting the entry
when the resulting quantity is zero, otherwise updating it in place; if
the symbol is absent, insert the incoming position (at the end, as dict
insertion does) unless its quantity is zero. -/
def mergeInto : List Position → Position → List Position
  | [], c => if c.quantity = 0 then [] else [c]
  | p :: rest, c =>
    if p.symbol = c.symbol then
      match vwap p.quantity p.price c.quantity c.price with
      | (nq, np) => if nq = 0 then rest else ⟨p.symbol, nq, np⟩ :: rest
    else
      p :: mergeInto rest c

/-- `Portfolio.add` with a `Position` argument (`src/builder.py`
lines 72-90, `elif isinstance(component, Position)` branch). -/
def addPosition : Portfolio → Position → Portfolio
  | node n o ps subs, c => node n o (mergeInto ps c) subs

/-- `Portfolio.add` with a `Portfolio` argument (`src/builder.py`
lines 72-74): append to `sub_portfolios`. -/
def addSub : Portfolio → Portfolio → Portfolio
  | node n o ps subs, c => node n o ps (subs ++ [c])

/-- Deleting a symbol from the `positions` mapping
(`Portfolio.remove`, `src/builder.py` lines 95-98): remove the entry if
present, silently do nothing if absent. -/
def removeKey : List Position → String → List Position
  | [], _ => []
  | p :: rest, s => if p.symbol = s then rest else p :: removeKey rest s

/-- `Portfolio.remove` with a `Position` argument (`src/builder.py`
lines 95-98). -/
def removePos : Portfolio → String → Portfolio
  | node n o ps subs, s => node n o (removeKey ps s) subs

/-- Python's `list.remove` on `sub_portfolios` (`src/builder.py`
line 94): drop the first element equal to `c`, or fail (`ValueError`)
when no element matches. -/
def removeFirstSub : List Portfolio → Portfolio → Option (List Portfolio)
  | [], _ => none
  | x :: rest, c =>
    if beq x c then some rest
    else (removeFirstSub rest c).map (fun l => x :: l)

/-- `Portfolio.remove` with a `Portfolio` argument (`src/builder.py`
lines 92-94): `none` models the `ValueError` raised by `list.remove`
when `c` is not a direct sub-portfolio. -/
def removeSub : Portfolio → Portfolio → Option Portfolio
  | node n o ps subs, c =>
    (removeFirstSub subs c).map (fun l => node n o ps l)

mutual

/-- `Portfolio.get_positions` from `src/builder.py` lines 100-104:
this node's positions (in mapping order) followed by each
sub-portfolio's flattened positions in child-list order. -/
def get_positions : Portfolio → List Position
  | node _ _ ps subs => ps ++ getPositionsList subs

/-- Flattening of a list of sub-portfolios, in order. -/
def getPositionsList : List Portfolio → List Position
  | [] => []
  | s :: rest => get_positions s ++ getPositionsList rest

end

mutual

/-- `Portfolio.get_value` from `src/builder.py` lines 106-109: the sum
of the position values plus the sum of the sub-portfolio values. -/
def get_value : Portfolio → List (String × ℚ) → ℚ
  | node _ _ ps subs, m =>
    (ps.map (fun p => p.get_value m)).sum + getValueList subs m

/-- Sum of `get_value` over a list of sub-portfolios. -/
def getValueList : List Portfolio → List (String × ℚ) → ℚ
  | [], _ => 0
  | s :: rest, m => get_value s m + getValueList rest m

end

mutual

/-- `Portfolio._to_dict` from `src/builder.py` lines 116-127: `name`
always, `owner` only when truthy (non-empty), `positions` and
`sub_portfolios` only when non-empty. -/
def to_dict : Portfolio → PortfolioDict
  | node n o ps subs =>
    PortfolioDict.mk n
      (if o = "" then none else some o)
      (if ps.isEmpty then none else some (ps.map Position.to_dict))
      (if subs.isEmpty then none else some (toDictList subs))

/-- `_to_dict` mapped over a list of sub-portfolios. -/
def toDictList : List Portfolio → List PortfolioDict
  | [] => []
  | s :: rest => to_dict s :: toDictList rest

end

/-- Setting the owner field (`PortfolioBuilder.set_owner`,
`src/builder.py` lines 136-137: `self._portfolio.owner = owner`). -/
def setOwner : Portfolio → String → Portfolio
  | node n _ ps subs, o => node n o ps subs

end Portfolio

/-- `Portfolio(name)` as constructed by `PortfolioBuilder.__init__`
(`src/builder.py` lines 50-54 and 133-134): empty positions, no
sub-portfolios, empty owner. -/
def Portfolio.empty (n : String) : Portfolio :=
  Portfolio.node n "" [] []

/-- The node-level well-formedness every tree produced by the code
maintains: all symbols in one node's mapping distinct (dict keys) and
no zero-quantity entry (`src/builder.py` lines 84-90). -/
def nodupSyms : List Position → Bool
  | [] => true
  | p :: rest => rest.all (fun q => q.symbol != p.symbol) && nodupSyms rest

mutual

/-- Recursive well-formedness of a portfolio tree: every node's
position mapping has distinct symbols and only nonzero quantities. -/
def Portfolio.wf : Portfolio → Bool
  | .node _ _ ps subs =>
    nodupSyms ps && ps.all (fun p => p.quantity != 0) && Portfolio.wfList subs

/-- `Portfolio.wf` over a list of sub-portfolios. -/
def Portfolio.wfList : List Portfolio → Bool
  | [] => true
  | s :: rest => Portfolio.wf s && Portfolio.wfList rest

end

/-- `PortfolioBuilder` (`src/builder.py` lines 130-152): wraps the
portfolio under construction. -/
structure PortfolioBuilder where
  _portfolio : Portfolio
deriving Repr

namespace PortfolioBuilder

/-- `PortfolioBuilder.__init__` (`src/builder.py` lines 133-134). -/
def init (n : String) : PortfolioBuilder :=
  ⟨Portfolio.empty n⟩

/-- `PortfolioBuilder.set_owner` (`src/builder.py` lines 136-137). -/
def set_owner (b : PortfolioBuilder) (o : String) : PortfolioBuilder :=
  ⟨b._portfolio.setOwner o⟩

/-- `PortfolioBuilder.add_position` (`src/builder.py` lines 139-142):
creates a `Position` and stages it through `Portfolio.add`. -/
def add_position (b : PortfolioBuilder) (s : String) (q pr : ℚ) : PortfolioBuilder :=
  ⟨b._portfolio.addPosition ⟨s, q, pr⟩⟩

/-- Attaching an already built sub-portfolio, the effect of
`PortfolioBuilder.add_subportfolio` (`src/builder.py` lines 144-147)
on the parent builder after the child's `build()`. -/
def attachSub (b : PortfolioBuilder) (c : Portfolio) : PortfolioBuilder :=
  ⟨b._portfolio.addSub c⟩

/-- `PortfolioBuilder.build` (`src/builder.py` lines 149-152): returns
the constructed node and replaces the builder's state with a fresh
empty `Portfolio()`. -/
def build (b : PortfolioBuilder) : Portfolio × PortfolioBuilder :=
  (b._portfolio, ⟨Portfolio.empty ""⟩)

end PortfolioBuilder

/-- The body of `build_recursive` in `PortfolioBuilder.from_dict`
(`src/builder.py` lines 156-169) once the recursive results for the
sub-portfolio documents are at hand: start a builder with the name,
set the owner if the key is present, stage every position entry in
order through `add_position`, attach each built child in order, and
`build()` the result. -/
def buildFromParts (n : String) (ow : Option String)
    (psd : List PosDict) (children : List Portfolio) : Portfolio :=
  let b0 := PortfolioBuilder.init n
  let b1 := match ow with
    | some o => b0.set_owner o
    | none => b0
  let b2 := psd.foldl (fun b pd => b.add_position pd.symbol pd.quantity pd.price) b1
  let b3 := children.foldl (fun b c => b.attachSub c) b2
  b3.build.1

mutual

/-- `PortfolioBuilder.from_dict` (`src/builder.py` lines 154-172):
recursive interpretation of a nested document, children built first.
Missing optional fields default to empty. -/
def PortfolioBuilder.from_dict : PortfolioDict → Portfolio
  | .mk n ow ps none => buildFromParts n ow (ps.getD []) []
  | .mk n ow ps (some l) => buildFromParts n ow (ps.getD []) (PortfolioBuilder.fromDictList l)

/-- `from_dict` mapped over the `sub_portfolios` entries, in order. -/
def PortfolioBuilder.fromDictList : List PortfolioDict → List Portfolio
  | [] => []
  | d :: rest => PortfolioBuilder.from_dict d :: PortfolioBuilder.fromDictList rest

end

/-- One mutation step on a live portfolio node: the four operations
`Portfolio.add` (with a position or a sub-portfolio) and
`Portfolio.remove` (with a position or a sub-portfolio) from
`src/builder.py` lines 72-98. -/
inductive NodeOp : Type where
  | trade (s : String) (q pr : ℚ)
  | dropPosition (s : String)
  | attachChild (c : Portfolio)
  | detachChild (c : Portfolio)

/-- Apply one `NodeOp`; a failed sub-portfolio removal (Python raises
`ValueError`) leaves the node unchanged. -/
def applyOp (p : Portfolio) : NodeOp → Portfolio
  | .trade s q pr => p.addPosition ⟨s, q, pr⟩
  | .dropPosition s => p.removePos s
  | .attachChild c => p.addSub c
  | .detachChild c =>
    match p.removeSub c with
    | some q => q
    | none => p

/-- Apply a sequence of `NodeOp`s left to right. -/
def applyOps (p : Portfolio) (ops : List NodeOp) : Portfolio :=
  ops.foldl applyOp p

/-- One staging call on a `PortfolioBuilder` between two `build()`s:
`set_owner`, `add_position`, or attaching a built sub-portfolio. -/
inductive BuildOp : Type where
  | setOwnerOp (o : String)
  | addPositionOp (s : String) (q pr : ℚ)
  | addSubOp (c : Portfolio)

/-- Apply one staging call to a builder. -/
def applyBuildOp (b : PortfolioBuilder) : BuildOp → PortfolioBuilder
  | .setOwnerOp o => b.set_owner o
  | .addPositionOp s q pr => b.add_position s q pr
  | .addSubOp c => b.attachSub c

/-- Apply a sequence of staging calls left to right. -/
def applyBuildOps (b : PortfolioBuilder) (ops : List BuildOp) : PortfolioBuilder :=
  ops.foldl applyBuildOp b

/-- Modelled from the spec: the per-position metrics `{value,
volatility}` returned by the external `SeriesMetrics` collaborator for
one direct position of a document (spec section 4.4, step 1); the
repository has no `MetricsAggregator` source under `src/`, only the
excluded collaborators in `src/metrics.py`. -/
structure MPos where
  value : ℚ
  volatility : ℚ
deriving Repr, DecidableEq

/-- Modelled from the spec: the nested-document view a
`MetricsAggregator` walks — direct position metrics plus
sub-portfolio documents (spec section 4.4). -/
inductive MDoc : Type where
  | mk (positions : List MPos) (sub_portfolios : List MDoc)

/-- Modelled from the spec: the two summary fields of the aggregated
metrics document (spec section 4.4, steps 3-4). -/
structure MResult where
  total_value : ℚ
  aggregate_volatility : ℚ
deriving Repr, DecidableEq

mutual

/-- Modelled from the spec: `MetricsAggregator.aggregate` (spec
section 4.4, absent from `src/`): bottom-up, `total_value` is the sum
of direct position values plus child total values;
`aggregate_volatility` is the value-weighted average over direct
positions and children (each child weighted by its `total_value` with
its own `aggregate_volatility` as its volatility), and `0` when
`total_value = 0`. -/
def aggregate : MDoc → MResult
  | .mk ps subs =>
    let childRes := aggregateList subs
    let tv := (ps.map MPos.value).sum + (childRes.map MResult.total_value).sum
    let weighted := (ps.map (fun p => p.value * p.volatility)).sum
      + (childRes.map (fun c => c.total_value * c.aggregate_volatility)).sum
    ⟨tv, if tv = 0 then 0 else weighted / tv⟩

/-- Modelled from the spec: recursive aggregation of the
sub-portfolio documents, in order (spec section 4.4, step 2). -/
def aggregateList : List MDoc → List MResult
  | [] => []
  | d :: rest => aggregate d :: aggregateList rest

end

/-! ## Helper lemmas -/

theorem beq_sound : ∀ a b, Portfolio.beq a b = true → a = b := by
  intro a
  induction a using Portfolio.rec
    (motive_2 := fun l => ∀ m, Portfolio.beqList l m = true → l = m) with
  | node n o ps subs ih =>
    intro b hb
    cases b with
    | node n2 o2 ps2 subs2 =>
      simp only [Portfolio.beq, Bool.and_eq_true, decide_eq_true_eq] at hb
      obtain ⟨⟨⟨h1, h2⟩, h3⟩, h4⟩ := hb
      subst h1; subst h2; subst h3
      rw [ih subs2 h4]
  | nil =>
    rename_i m hm
    cases m with
    | nil => rfl
    | cons y ys => simp [Portfolio.beqList] at hm
  | cons x xs ihx ihxs =>
    rename_i m hm
    cases m with
    | nil => simp [Portfolio.beqList] at hm
    | cons y ys =>
      simp only [Portfolio.beqList, Bool.and_eq_true] at hm
      rw [ihx y hm.1, ihxs ys hm.2]

theorem getPositionsList_eq_join (l : List Portfolio) :
    Portfolio.getPositionsList l = (l.map Portfolio.get_positions).flatten := by
  induction l with
  | nil => rfl
  | cons s rest ih => simp [Portfolio.getPositionsList, ih]

theorem get_value_eq_flatten_sum (p : Portfolio) (m : List (String × ℚ)) :
    p.get_value m
      = (p.get_positions.map (fun pos => pos.quantity * priceOf m pos.symbol)).sum := by
  induction p using Portfolio.rec
    (motive_2 := fun l => Portfolio.getValueList l m
      = ((Portfolio.getPositionsList l).map
          (fun pos => pos.quantity * priceOf m pos.symbol)).sum) with
  | node n o ps subs ih =>
    simp only [Portfolio.get_value, Portfolio.get_positions, List.map_append,
      List.sum_append, ih, Position.get_value]
  | nil => simp [Portfolio.getValueList, Portfolio.getPositionsList]
  | cons s rest ihs ihrest =>
    simp only [Portfolio.getValueList, Portfolio.getPositionsList, List.map_append,
      List.sum_append, ihs, ihrest]

theorem priceOf_absent (m : List (String × ℚ)) (s : String)
    (h : ∀ kv ∈ m, kv.1 ≠ s) : priceOf m s = 0 := by
  unfold priceOf
  have : m.find? (fun kv => kv.1 == s) = none := by
    rw [List.find?_eq_none]
    intro kv hkv
    simpa using h kv hkv
  rw [this]

/-! ## Claim theorems -/

/-- C1: the claim says the position-flip branch of the trade merge
produces `(new_qty, trade_price)` and in particular that `(qty=10,
price=100)` merged with the trade `(qty=-15, price=90)` yields
`(qty=-5, price=90)`.  The code's flip branch instead returns
`(trade_price, trade_price)`: on that very input `_vwap` evaluates to
`(90, 90)`, and the merged position stored in the mapping becomes
`(qty=90, price=90)`, not `(qty=-5, price=90)`. -/
theorem vwap_flip_mismatch :
    Portfolio.vwap 10 100 (-15) 90 = (90, 90)
      ∧ Portfolio.vwap 10 100 (-15) 90 ≠ (-5, 90)
      ∧ Portfolio.mergeInto [⟨"A", 10, 100⟩] ⟨"A", -15, 90⟩ = [⟨"A", 90, 90⟩] := by
  refine ⟨?_, ?_, ?_⟩
  · norm_num [Portfolio.vwap]
  · norm_num [Portfolio.vwap, Prod.ext_iff]
  · norm_num [Portfolio.mergeInto, Portfolio.vwap]

/-- C7: for a same-direction accumulation or a partial reduction
without flip (`new_qty = old_qty + trade_qty` nonzero and
`old_qty * new_qty ≥ 0`), the trade merge produces
`(new_qty, (old_qty * old_price + trade_qty * trade_price) / new_qty)`,
the volume-weighted average; with the base case `(0, 0)` this
degenerates to the trade price. -/
theorem vwap_same_direction (oq op tq tp : ℚ)
    (h0 : oq + tq ≠ 0) (h1 : 0 ≤ oq * (oq + tq)) :
    Portfolio.vwap oq op tq tp = (oq + tq, (oq * op + tq * tp) / (oq + tq)) := by
  unfold Portfolio.vwap
  rw [if_neg h0, if_neg (not_lt.mpr h1)]

/-- C7 witness: the claim's concrete accumulation — `(qty=10,
price=100)` followed by the trade `(qty=10, price=120)` yields
`(qty=20, price=110)` — obtained from `vwap_same_direction`. -/
theorem vwap_same_direction_witness :
    Portfolio.vwap 10 100 10 120 = (20, 110) := by
  rw [vwap_same_direction 10 100 10 120 (by norm_num) (by norm_num)]
  norm_num

/-- C5: `build()` returns the node constructed so far and resets the
builder to a fresh empty node: the returned tree is exactly the staged
portfolio, the post-build state is the fresh empty builder, and the
tree produced by a second build after further staging depends only on
what was staged after the first build, never on the first tree. -/
theorem build_resets (b : PortfolioBuilder) (ops : List BuildOp) :
    b.build.1 = b._portfolio
      ∧ b.build.2 = PortfolioBuilder.init ""
      ∧ (applyBuildOps b.build.2 ops).build.1
          = (applyBuildOps (PortfolioBuilder.init "") ops).build.1 := by
  exact ⟨rfl, rfl, rfl⟩

/-- C9: `get_positions()` returns this node's own positions first,
followed by each sub-portfolio's flattened positions in child-list
order; its length is the number of direct positions plus the lengths
contributed by the children, and on a root with 2 direct positions and
one child holding 3 positions it returns exactly 5 entries. -/
theorem get_positions_structure (n o : String)
    (ps : List Position) (subs : List Portfolio) :
    (Portfolio.node n o ps subs).get_positions
        = ps ++ (subs.map Portfolio.get_positions).flatten
      ∧ (Portfolio.node n o ps subs).get_positions.length
          = ps.length + (subs.map (fun s => s.get_positions.length)).sum
      ∧ (Portfolio.node "r" "" [⟨"A", 1, 1⟩, ⟨"B", 2, 2⟩]
          [Portfolio.node "c" "" [⟨"C", 3, 3⟩, ⟨"D", 4, 4⟩, ⟨"E", 5, 5⟩] []]
          ).get_positions.length = 5 := by
  refine ⟨?_, ?_, by rfl⟩
  · simp [Portfolio.get_positions, getPositionsList_eq_join]
  · simp only [Portfolio.get_positions, getPositionsList_eq_join,
      List.length_append, List.length_flatten, List.map_map, Function.comp_def]

/-- C6: `get_value` is the sum of `quantity * priceLookup(symbol)` over
every position in the subtree, where a symbol absent from the lookup
contributes `0` (the lookup `priceOf` returning `0` for a symbol with
no entry); valuation therefore never fails on missing prices. -/
theorem get_value_missing_price_policy (p : Portfolio) (m : List (String × ℚ)) :
    p.get_value m
        = (p.get_positions.map (fun pos => pos.quantity * priceOf m pos.symbol)).sum
      ∧ ∀ s, (∀ kv ∈ m, kv.1 ≠ s) → priceOf m s = 0 := by
  exact ⟨get_value_eq_flatten_sum p m, fun s h => priceOf_absent m s h⟩

/-- C6 witness: the two-symbol portfolio valued against a lookup that
only knows one of the symbols — the missing symbol contributes `0`, the
present one its `quantity * price`. -/
theorem get_value_missing_price_policy_witness :
    (Portfolio.node "r" "" [⟨"A", 2, 10⟩, ⟨"B", 3, 4⟩] []).get_value [("A", 7)] = 14
      ∧ priceOf [("A", 7)] "B" = 0 := by
  have h := get_value_missing_price_policy
    (Portfolio.node "r" "" [⟨"A", 2, 10⟩, ⟨"B", 3, 4⟩] []) [("A", 7)]
  refine ⟨?_, h.2 "B" (by simp)⟩
  rw [h.1]
  simp [Portfolio.get_positions, Portfolio.getPositionsList, priceOf]
  norm_num

/-- C10: valuation is a homomorphic image of flattening — `get_value`
on the root equals the sum, over the list returned by
`get_positions()`, of each position's own `get_value` under the same
lookup. -/
theorem get_value_eq_sum_of_flattened (p : Portfolio) (m : List (String × ℚ)) :
    p.get_value m = (p.get_positions.map (fun pos => pos.get_value m)).sum := by
  simpa only [Position.get_value] using get_value_eq_flatten_sum p m

/-- C8: removing a portfolio node that is not among the direct
sub-portfolios fails (Python's `list.remove` raises `ValueError`,
modelled as `none`) rather than searching recursively or succeeding
silently, and the failed removal leaves the node unchanged. -/
theorem removeSub_not_member (p c : Portfolio) (h : c ∉ p.sub_portfolios) :
    p.removeSub c = none ∧ applyOp p (NodeOp.detachChild c) = p := by
  obtain ⟨n, o, ps, subs⟩ := p
  simp only [Portfolio.sub_portfolios] at h
  have hnone : Portfolio.removeFirstSub subs c = none := by
    induction subs with
    | nil => rfl
    | cons x rest ih =>
      have hx : Portfolio.beq x c = false := by
        cases hb : Portfolio.beq x c with
        | false => rfl
        | true =>
          exact absurd (beq_sound x c hb ▸ List.mem_cons_self x rest) h
      simp only [Portfolio.removeFirstSub, hx, Bool.false_eq_true, if_false]
      rw [ih (fun hc => h (List.mem_cons_of_mem x hc))]
      rfl
  constructor
  · simp [Portfolio.removeSub, hnone]
  · simp [applyOp, Portfolio.removeSub, hnone]

/-- C8 witness: a grandchild (present deeper in the tree but not a
direct sub-portfolio) cannot be removed — the removal signals the
error and the tree is unchanged. -/
theorem removeSub_not_member_witness :
    (Portfolio.node "root" ""
        [] [Portfolio.node "mid" "" [] [Portfolio.node "leaf" "" [] []]]
      ).removeSub (Portfolio.node "leaf" "" [] []) = none := by
  exact (removeSub_not_member
    (Portfolio.node "root" ""
      [] [Portfolio.node "mid" "" [] [Portfolio.node "leaf" "" [] []]])
    (Portfolio.node "leaf" "" [] [])
    (by simp [Portfolio.sub_portfolios])).1

theorem removeKey_mem (ps : List Position) (s : String) :
    ∀ q ∈ Portfolio.removeKey ps s, q ∈ ps := by
  induction ps with
  | nil => simp [Portfolio.removeKey]
  | cons p rest ih =>
    intro q hq
    simp only [Portfolio.removeKey] at hq
    split at hq
    · exact List.mem_cons_of_mem p hq
    · rcases List.mem_cons.mp hq with h1 | h2
      · exact h1 ▸ List.mem_cons_self p rest
      · exact List.mem_cons_of_mem p (ih q h2)

theorem mergeInto_nonzero (ps : List Position) (c : Position)
    (h : ∀ q ∈ ps, q.quantity ≠ 0) :
    ∀ q ∈ Portfolio.mergeInto ps c, q.quantity ≠ 0 := by
  induction ps with
  | nil =>
    intro q hq
    simp only [Portfolio.mergeInto] at hq
    split at hq
    · simp at hq
    · rename_i hc
      simp only [List.mem_singleton] at hq
      exact hq ▸ hc
  | cons p rest ih =>
    have hrest : ∀ q ∈ rest, q.quantity ≠ 0 :=
      fun q hq => h q (List.mem_cons_of_mem p hq)
    intro q hq
    simp only [Portfolio.mergeInto] at hq
    split at hq
    · rcases hv : Portfolio.vwap p.quantity p.price c.quantity c.price with ⟨nq, np⟩
      rw [hv] at hq
      simp only at hq
      split at hq
      · exact hrest q hq
      · rename_i hnq
        rcases List.mem_cons.mp hq with h1 | h2
        · rw [h1]
          exact hnq
        · exact hrest q h2
    · rcases List.mem_cons.mp hq with h1 | h2
      · exact h1 ▸ h p (List.mem_cons_self p rest)
      · exact ih hrest q h2

theorem applyOp_nonzero (p : Portfolio) (op : NodeOp)
    (h : ∀ q ∈ p.positions, q.quantity ≠ 0) :
    ∀ q ∈ (applyOp p op).positions, q.quantity ≠ 0 := by
  obtain ⟨n, o, ps, subs⟩ := p
  simp only [Portfolio.positions] at h
  cases op with
  | trade s qq pr =>
    simpa only [applyOp, Portfolio.addPosition, Portfolio.positions]
      using mergeInto_nonzero ps ⟨s, qq, pr⟩ h
  | dropPosition s =>
    intro q hq
    simp only [applyOp, Portfolio.removePos, Portfolio.positions] at hq
    exact h q (removeKey_mem ps s q hq)
  | attachChild c =>
    simpa only [applyOp, Portfolio.addSub, Portfolio.positions] using h
  | detachChild c =>
    cases hr : Portfolio.removeFirstSub subs c with
    | none => simpa only [applyOp, Portfolio.removeSub, hr, Option.map_none,
        Portfolio.positions] using h
    | some l => simpa only [applyOp, Portfolio.removeSub, hr, Option.map_some,
        Portfolio.positions] using h

theorem applyOps_nonzero (ops : List NodeOp) :
    ∀ (p : Portfolio), (∀ q ∈ p.positions, q.quantity ≠ 0) →
      ∀ q ∈ (applyOps p ops).positions, q.quantity ≠ 0 := by
  induction ops with
  | nil => intro p h; simpa [applyOps] using h
  | cons op rest ih =>
    intro p h
    simpa only [applyOps, List.foldl_cons]
      using ih (applyOp p op) (applyOp_nonzero p op h)

/-- C4: across any sequence of add and remove operations on a node,
no position with quantity zero is ever present in the node's mapping —
a trade driving an existing position's quantity to exactly zero deletes
the entry; in particular `(qty=10, price=100)` followed by a trade of
`qty=-10` at any price leaves the node with no positions at all. -/
theorem zero_quantity_invariant (p : Portfolio) (ops : List NodeOp)
    (h : ∀ q ∈ p.positions, q.quantity ≠ 0) :
    (∀ q ∈ (applyOps p ops).positions, q.quantity ≠ 0)
      ∧ ∀ pr : ℚ, (applyOps (Portfolio.empty "n")
          [NodeOp.trade "A" 10 100, NodeOp.trade "A" (-10) pr]).get_positions = [] := by
  refine ⟨applyOps_nonzero ops p h, ?_⟩
  intro pr
  show (((Portfolio.empty "n").addPosition ⟨"A", 10, 100⟩).addPosition
      ⟨"A", -10, pr⟩).get_positions = []
  norm_num [Portfolio.empty, Portfolio.addPosition, Portfolio.mergeInto,
    Portfolio.vwap, Portfolio.get_positions, Portfolio.getPositionsList]

/-- C4 witness: the claim's concrete full close, from
`zero_quantity_invariant` — opening `(qty=10, price=100)` and trading
`qty=-10` at price `55` leaves an empty node. -/
theorem zero_quantity_invariant_witness :
    (applyOps (Portfolio.empty "n")
        [NodeOp.trade "A" 10 100, NodeOp.trade "A" (-10) 55]).get_positions = [] := by
  exact (zero_quantity_invariant (Portfolio.empty "n") []
    (by simp [Portfolio.empty, Portfolio.positions])).2 55

theorem mergeInto_fresh (acc : List Position) (c : Position)
    (hs : ∀ a ∈ acc, a.symbol ≠ c.symbol) (hq : c.quantity ≠ 0) :
    Portfolio.mergeInto acc c = acc ++ [c] := by
  induction acc with
  | nil => simp [Portfolio.mergeInto, hq]
  | cons a rest ih =>
    have hne : ¬ a.symbol = c.symbol := hs a (List.mem_cons_self a rest)
    simp only [Portfolio.mergeInto, hne, if_false, List.cons_append]
    rw [ih (fun b hb => hs b (List.mem_cons_of_mem a hb))]

theorem foldl_mergeInto (ps : List Position) :
    ∀ acc : List Position,
      (∀ p ∈ ps, ∀ a ∈ acc, a.symbol ≠ p.symbol) →
      nodupSyms ps = true →
      (∀ p ∈ ps, p.quantity ≠ 0) →
      List.foldl Portfolio.mergeInto acc ps = acc ++ ps := by
  induction ps with
  | nil => intro acc _ _ _; simp
  | cons p rest ih =>
    intro acc hdisj hnodup hnz
    simp only [nodupSyms, Bool.and_eq_true, List.all_eq_true, bne_iff_ne] at hnodup
    obtain ⟨hsep, hrest⟩ := hnodup
    simp only [List.foldl_cons]
    rw [mergeInto_fresh acc p
      (fun a ha => hdisj p (List.mem_cons_self p rest) a ha)
      (hnz p (List.mem_cons_self p rest))]
    rw [ih (acc ++ [p]) ?_ hrest
      (fun q hq => hnz q (List.mem_cons_of_mem p hq))]
    · simp
    · intro r hr a ha
      rcases List.mem_append.mp ha with h1 | h2
      · exact hdisj r (List.mem_cons_of_mem p hr) a h1
      · rw [List.mem_singleton.mp h2]
        exact fun e => hsep r hr e.symm

theorem foldl_add_position (psd : List PosDict) :
    ∀ (n o : String) (acc : List Position) (subs : List Portfolio),
      (psd.foldl (fun b pd => b.add_position pd.symbol pd.quantity pd.price)
          ⟨Portfolio.node n o acc subs⟩ : PortfolioBuilder)
        = ⟨Portfolio.node n o
            (psd.foldl
              (fun l pd => Portfolio.mergeInto l ⟨pd.symbol, pd.quantity, pd.price⟩)
              acc)
            subs⟩ := by
  induction psd with
  | nil => intro n o acc subs; rfl
  | cons pd rest ih =>
    intro n o acc subs
    simp only [List.foldl_cons]
    exact ih n o (Portfolio.mergeInto acc ⟨pd.symbol, pd.quantity, pd.price⟩) subs

theorem foldl_attachSub (cs : List Portfolio) :
    ∀ (n o : String) (ps : List Position) (subs : List Portfolio),
      (cs.foldl (fun b c => b.attachSub c) ⟨Portfolio.node n o ps subs⟩ : PortfolioBuilder)
        = ⟨Portfolio.node n o ps (subs ++ cs)⟩ := by
  induction cs with
  | nil => intro n o ps subs; simp
  | cons c rest ih =>
    intro n o ps subs
    simp only [List.foldl_cons]
    have step : (⟨Portfolio.node n o ps subs⟩ : PortfolioBuilder).attachSub c
        = ⟨Portfolio.node n o ps (subs ++ [c])⟩ := rfl
    rw [step, ih]
    simp

theorem buildFromParts_spec (n : String) (ow : Option String)
    (psd : List PosDict) (children : List Portfolio) :
    buildFromParts n ow psd children
      = Portfolio.node n (ow.getD "")
          (psd.foldl
            (fun l pd => Portfolio.mergeInto l ⟨pd.symbol, pd.quantity, pd.price⟩) [])
          children := by
  cases ow with
  | none =>
    simp only [buildFromParts, PortfolioBuilder.init, Portfolio.empty]
    rw [foldl_add_position psd n "" [] [], foldl_attachSub children n "" _ []]
    rfl
  | some o =>
    simp only [buildFromParts, PortfolioBuilder.init, Portfolio.empty,
      PortfolioBuilder.set_owner, Portfolio.setOwner]
    rw [foldl_add_position psd n o [] [], foldl_attachSub children n o _ []]
    rfl

/-- C3: deserializing the serialized nested-document form of a
portfolio tree (`PortfolioBuilder.from_dict` applied to the tree's
`_to_dict` output) reproduces the tree exactly — identical names,
owners, sub-portfolio structure in order, and identical `(symbol,
quantity, price)` positions — for every tree whose nodes hold distinct
symbols with nonzero quantities (the invariant the code maintains). -/
theorem round_trip (p : Portfolio) (h : p.wf = true) :
    PortfolioBuilder.from_dict p.to_dict = p := by
  induction p using Portfolio.rec
    (motive_2 := fun l => Portfolio.wfList l = true →
      PortfolioBuilder.fromDictList (Portfolio.toDictList l) = l) with
  | node n o ps subs ih =>
    simp only [Portfolio.wf, Bool.and_eq_true, List.all_eq_true, bne_iff_ne] at h
    obtain ⟨⟨hnodup, hnz⟩, hsubs⟩ := h
    have hfold : List.foldl Portfolio.mergeInto [] ps = ps :=
      foldl_mergeInto ps [] (fun q _ a ha => absurd ha (List.not_mem_nil a)) hnodup hnz
    have hfold2 : List.foldl
        (fun l pd => Portfolio.mergeInto l ⟨pd.symbol, pd.quantity, pd.price⟩) []
        (ps.map Position.to_dict) = ps := by
      rw [List.foldl_map]
      exact hfold
    have hps : ((if ps.isEmpty then none
        else some (ps.map Position.to_dict)) : Option (List PosDict)).getD []
        = ps.map Position.to_dict := by
      cases ps <;> simp
    have how : ((if o = "" then none else some o) : Option String).getD "" = o := by
      by_cases ho : o = "" <;> simp [ho]
    cases subs with
    | nil =>
      show PortfolioBuilder.from_dict
          (PortfolioDict.mk n (if o = "" then none else some o)
            (if ps.isEmpty then none else some (ps.map Position.to_dict)) none)
        = Portfolio.node n o ps []
      simp only [PortfolioBuilder.from_dict]
      rw [buildFromParts_spec, hps, how, hfold2]
    | cons s rest =>
      show PortfolioBuilder.from_dict
          (PortfolioDict.mk n (if o = "" then none else some o)
            (if ps.isEmpty then none else some (ps.map Position.to_dict))
            (some (Portfolio.toDictList (s :: rest))))
        = Portfolio.node n o ps (s :: rest)
      simp only [PortfolioBuilder.from_dict]
      rw [ih hsubs, buildFromParts_spec, hps, how, hfold2]
  | nil =>
    rfl
  | cons s rest ihs ihrest =>
    rename_i hl
    simp only [Portfolio.wfList, Bool.and_eq_true] at hl
    simp only [Portfolio.toDictList, PortfolioBuilder.fromDictList]
    rw [ihs hl.1, ihrest hl.2]

/-- C3 witness: a concrete 2-level tree with owner, two root positions
and one child position survives the serialize/deserialize round trip
unchanged, via `round_trip`. -/
theorem round_trip_witness :
    PortfolioBuilder.from_dict
        (Portfolio.to_dict (Portfolio.node "root" "alice"
          [⟨"A", 2, 10⟩, ⟨"B", -3, 5⟩]
          [Portfolio.node "child" "" [⟨"A", 1, 7⟩] []]))
      = Portfolio.node "root" "alice"
          [⟨"A", 2, 10⟩, ⟨"B", -3, 5⟩]
          [Portfolio.node "child" "" [⟨"A", 1, 7⟩] []] := by
  exact round_trip _ (by
    simp [Portfolio.wf, Portfolio.wfList, nodupSyms])

/-- C2: the metrics aggregation computes, for every node,
`total_value` as the sum of the direct position values plus the child
total values, and `aggregate_volatility` as the value-weighted average
over direct positions and children (each child weighted by its
`total_value`, contributing its own `aggregate_volatility`), defined
as `0` whenever `total_value = 0`. -/
theorem aggregate_weighted (ps : List MPos) (subs : List MDoc) :
    (aggregate (MDoc.mk ps subs)).total_value
        = (ps.map MPos.value).sum
          + ((aggregateList subs).map MResult.total_value).sum
      ∧ ((aggregate (MDoc.mk ps subs)).total_value = 0 →
          (aggregate (MDoc.mk ps subs)).aggregate_volatility = 0)
      ∧ ((aggregate (MDoc.mk ps subs)).total_value ≠ 0 →
          (aggregate (MDoc.mk ps subs)).aggregate_volatility
            = ((ps.map (fun q => q.value * q.volatility)).sum
                + ((aggregateList subs).map
                    (fun c => c.total_value * c.aggregate_volatility)).sum)
              / (aggregate (MDoc.mk ps subs)).total_value) := by
  refine ⟨rfl, ?_, ?_⟩
  · intro h0
    simp only [aggregate]
    simp only [aggregate] at h0
    rw [if_pos h0]
  · intro hne
    simp only [aggregate]
    simp only [aggregate] at hne
    rw [if_neg hne]

/-- C2 witness: the claim's concrete instance via `aggregate_weighted`
— a root with one direct position `(value=100, volatility=1/5)` and one
child aggregating to `(total_value=300, aggregate_volatility=1/10)`
gets `total_value = 400` and `aggregate_volatility = 1/8 = 0.125`, and
an all-zero-value subtree aggregates to volatility `0`. -/
theorem aggregate_weighted_witness :
    (aggregate (MDoc.mk [⟨300, 1/10⟩] [])).total_value = 300
      ∧ (aggregate (MDoc.mk [⟨300, 1/10⟩] [])).aggregate_volatility = 1/10
      ∧ (aggregate (MDoc.mk [⟨100, 1/5⟩] [MDoc.mk [⟨300, 1/10⟩] []])).total_value = 400
      ∧ (aggregate (MDoc.mk [⟨100, 1/5⟩]
          [MDoc.mk [⟨300, 1/10⟩] []])).aggregate_volatility = 1/8
      ∧ (aggregate (MDoc.mk [⟨0, 1/2⟩]
          [MDoc.mk [⟨0, 1/3⟩] []])).aggregate_volatility = 0 := by
  have htv : (aggregate (MDoc.mk [⟨100, 1/5⟩]
      [MDoc.mk [⟨300, 1/10⟩] []])).total_value = 400 := by
    rw [(aggregate_weighted [⟨100, 1/5⟩] [MDoc.mk [⟨300, 1/10⟩] []]).1]
    norm_num [aggregateList, aggregate]
  have hvol := (aggregate_weighted [⟨100, 1/5⟩] [MDoc.mk [⟨300, 1/10⟩] []]).2.2
    (by rw [htv]; norm_num)
  have hzero := (aggregate_weighted [⟨0, 1/2⟩] [MDoc.mk [⟨0, 1/3⟩] []]).2.1
    (by norm_num [aggregate, aggregateList])
  refine ⟨by norm_num [aggregate, aggregateList], by norm_num [aggregate, aggregateList],
    htv, ?_, hzero⟩
  rw [hvol, htv]
  norm_num [aggregateList, aggregate]
